import Mathlib

/-!
Verification of the credential-management core of the Authentication-system
repository (src/final.cpp) against its specification.

The C++ code is shallowly embedded: `std::string` is modelled as `List Char`,
the `std::map<string, pair<string,string>>` of `Database` as an association
list ordered by the same comparisons `std::map` uses, exceptions as
`Except`/`Option`, and the external libsodium key-derivation function
`crypto_pwhash` as an explicit function parameter (it is a deterministic
function of password and salt for fixed algorithm parameters, which is what
makes functional modelling sound; a `none` result models a failing call).
-/

set_option maxRecDepth 20000

namespace AuthSystem

/-- C++ `std::string`: a sequence of characters. -/
abbrev Str := List Char

/-! ## Character classification (`<cctype>` in the "C" locale)

`islower`, `isupper`, `isdigit` accept exactly the ASCII ranges a-z, A-Z,
0-9; anything else (including non-ASCII bytes) is classified into none of
the three, which is what `StandardPasswordChecker`'s trailing `else` calls
special. -/

def isLowerC (c : Char) : Bool := 97 ≤ c.toNat && c.toNat ≤ 122

def isUpperC (c : Char) : Bool := 65 ≤ c.toNat && c.toNat ≤ 90

def isDigitC (c : Char) : Bool := 48 ≤ c.toNat && c.toNat ≤ 57

/-! ## StandardPasswordChecker (src/final.cpp lines 198-262) -/

/-- One step of the character loop shared by `checkStrength` and
`calculateStrengthPercentage`: the `if / else if / else` chain setting
`hasLower`, `hasUpper`, `hasDigit`, `hasSpecial`. -/
def classifyStep (acc : Bool × Bool × Bool × Bool) (c : Char) :
    Bool × Bool × Bool × Bool :=
  if isLowerC c then (true, acc.2.1, acc.2.2.1, acc.2.2.2)
  else if isUpperC c then (acc.1, true, acc.2.2.1, acc.2.2.2)
  else if isDigitC c then (acc.1, acc.2.1, true, acc.2.2.2)
  else (acc.1, acc.2.1, acc.2.2.1, true)

/-- The four flags `(hasLower, hasUpper, hasDigit, hasSpecial)` after the
`for (char c : pw)` loop, all starting `false`. -/
def classify (pw : Str) : Bool × Bool × Bool × Bool :=
  pw.foldl classifyStep (false, false, false, false)

/-- The diagnostics `checkStrength` emits through `Terminal::printError`,
one constructor per distinct message. -/
inductive Diag where
  | tooShort
  | missingLower
  | missingUpper
  | missingDigit
  | missingSpecial
  deriving DecidableEq

/-- `StandardPasswordChecker::checkStrength` together with the error
diagnostics it prints: a length below 12 returns `false` immediately after
the length message (the category checks are never reached); otherwise the
character loop runs and one message is printed per missing category, in
source order.  The `printSuccess` call on the all-present path is not an
error diagnostic and is not modelled. -/
def checkStrengthDiag (pw : Str) : Bool × List Diag :=
  if pw.length < 12 then (false, [Diag.tooShort])
  else
    let r := classify pw
    ((r.1 && r.2.1 && r.2.2.1 && r.2.2.2),
      (if r.1 then [] else [Diag.missingLower]) ++
      (if r.2.1 then [] else [Diag.missingUpper]) ++
      (if r.2.2.1 then [] else [Diag.missingDigit]) ++
      (if r.2.2.2 then [] else [Diag.missingSpecial]))

/-- The boolean result of `StandardPasswordChecker::checkStrength`. -/
def checkStrength (pw : Str) : Bool := (checkStrengthDiag pw).1

/-- Length part of the score: `min(40, (int)(pw.length() * 3.33))`.  The C
cast truncates toward zero.  For every length `n` the truncated IEEE-double
product `(int)(n * 3.33)` equals the exact integer computation
`n * 333 / 100`: for `n ≤ 12` the products are at least 0.01 away from the
nearest integer so the double rounding error (below 1e-10 there) cannot
move the truncation, and for `n ≥ 13` both sides are at least 43 and are
absorbed by the `min` with 40. -/
def lengthScore (n : Nat) : Nat := min 40 (n * 333 / 100)

/-- `StandardPasswordChecker::calculateStrengthPercentage`: length score,
plus 15 points per present category, capped at 100. -/
def calculateStrengthPercentage (pw : Str) : Nat :=
  let r := classify pw
  min 100 (lengthScore pw.length
    + (if r.1 then 15 else 0)
    + (if r.2.1 then 15 else 0)
    + (if r.2.2.1 then 15 else 0)
    + (if r.2.2.2 then 15 else 0))

/-- Number of the four character-class categories present in `pw`, with
"special" read as the specification words it: neither a letter nor a
digit. -/
def categoryCount (pw : Str) : Nat :=
  (if pw.any isLowerC then 1 else 0) +
  (if pw.any isUpperC then 1 else 0) +
  (if pw.any isDigitC then 1 else 0) +
  (if pw.any (fun c => !(isLowerC c || isUpperC c) && !isDigitC c) then 1 else 0)

/-- Modelled from the spec wording of the strength score, for comparison
with the implementation: the length part is *rounded* (`round(length *
3.33)`, half up) instead of truncated. -/
def calculateStrengthPercentageSpec (pw : Str) : Nat :=
  min 100 (min 40 ((pw.length * 333 + 50) / 100) + 15 * categoryCount pw)

/-! ## PasswordHasher (src/final.cpp lines 335-398) -/

/-- The two exception sources inside `hashPassword`: `stoi`/`substr`
raising while the salt hex is decoded, and `crypto_pwhash` returning
nonzero, which raises `runtime_error("Hashing failed")`. -/
inductive HashError where
  | saltDecode
  | kdfFailure
  deriving DecidableEq

/-- Value of one hexadecimal digit, upper or lower case. -/
def hexDigitVal (c : Char) : Option Nat :=
  if 48 ≤ c.toNat ∧ c.toNat ≤ 57 then some (c.toNat - 48)
  else if 97 ≤ c.toNat ∧ c.toNat ≤ 102 then some (c.toNat - 87)
  else if 65 ≤ c.toNat ∧ c.toNat ≤ 70 then some (c.toNat - 55)
  else none

/-- One byte of the salt: `stoi(salt_hex.substr(i*2, 2), nullptr, 16)`.
`substr` raises `out_of_range` when `i*2 > size`; `stoi` parses the longest
hexadecimal prefix of the at-most-two-character piece and raises
`invalid_argument` when that prefix is empty.  (`stoi`'s tolerance for
leading whitespace or a sign is not modelled; no salt built by this program
contains them and no claim depends on that corner.)  `none` models a raised
exception. -/
def saltByte (cs : Str) (i : Nat) : Option Nat :=
  if cs.length < i * 2 then none
  else
    match (cs.drop (i * 2)).take 2 with
    | [] => none
    | [c] => hexDigitVal c
    | c :: d :: _ =>
      match hexDigitVal c with
      | none => none
      | some v =>
        match hexDigitVal d with
        | none => some v
        | some w => some (16 * v + w)

/-- `crypto_pwhash_SALTBYTES` for libsodium's default algorithm. -/
def crypto_pwhash_SALTBYTES : Nat := 16

/-- The salt-decoding loop of `hashPassword`: sixteen bytes, each from two
hex characters; the first raised exception aborts the whole decode. -/
def decodeSalt (salt_hex : Str) : Option (List Nat) :=
  (List.range crypto_pwhash_SALTBYTES).mapM (saltByte salt_hex)

/-- One byte rendered by `snprintf("%02x", b)`: two lowercase hex digits
(every producer in the program passes byte values below 256). -/
def hexChar (n : Nat) : Char :=
  if n < 10 then Char.ofNat (48 + n) else Char.ofNat (87 + n)

def byteToHex (b : Nat) : Str := [hexChar (b / 16 % 16), hexChar (b % 16)]

/-- The hex-rendering loops of `generateSalt` and `hashPassword`. -/
def bytesToHex : List Nat → Str
  | [] => []
  | b :: bs => byteToHex b ++ bytesToHex bs

/-- The external `crypto_pwhash` call with the program's fixed parameters
(Argon2 default algorithm, moderate limits, 32-byte output): a
deterministic function of password bytes and salt bytes; `none` models a
nonzero return (derivation failure). -/
abbrev Kdf := Str → List Nat → Option (List Nat)

/-- The salts `PasswordHasher::generateSalt` can produce: hex renderings of
sixteen random bytes. -/
def GeneratedSalt (s : Str) : Prop :=
  ∃ bytes : List Nat, bytes.length = crypto_pwhash_SALTBYTES ∧
    (∀ b ∈ bytes, b < 256) ∧ s = bytesToHex bytes

/-- `PasswordHasher::hashPassword`: decode the salt hex (exceptions from
`stoi`/`substr` propagate), run the key derivation (`runtime_error` on a
nonzero return), hex-encode the 32-byte digest. -/
def hashPassword (kdf : Kdf) (password salt_hex : Str) : Except HashError Str :=
  match decodeSalt salt_hex with
  | none => .error .saltDecode
  | some salt =>
    match kdf password salt with
    | none => .error .kdfFailure
    | some digest => .ok (bytesToHex digest)

/-- `PasswordHasher::verifyPassword`: recompute the hash and compare; the
`try`/`catch (...)` turns any exception into `false`. -/
def verifyPassword (kdf : Kdf) (password hash salt : Str) : Bool :=
  match hashPassword kdf password salt with
  | .ok h => hash = h
  | .error _ => false

/-! ## Database (src/final.cpp lines 404-484)

`std::map<string, pair<string,string>>` is modelled as an association list
kept in the map's iteration order; `operator[]` assignment is `mapInsert`,
`find` is `mapFind`, `size()` is `List.length`. -/

/-- A credential record: username, hash hex, salt hex. -/
abbrev Entry := Str × Str × Str

/-- `std::string` comparison (`std::less`): lexicographic by character. -/
def strLt : Str → Str → Bool
  | [], [] => false
  | [], _ :: _ => true
  | _ :: _, [] => false
  | a :: as, b :: bs => if a < b then true else if b < a then false else strLt as bs

/-- `users.find(u)`: the stored `(hash, salt)` pair, if any. -/
def mapFind : List Entry → Str → Option (Str × Str)
  | [], _ => none
  | (k, p) :: rest, u => if k = u then some p else mapFind rest u

/-- `users[u] = p`: insert at the ordered position, or overwrite the entry
already keyed by `u`. -/
def mapInsert : List Entry → Str → Str × Str → List Entry
  | [], u, p => [(u, p)]
  | (k, q) :: rest, u, p =>
    if strLt u k then (u, p) :: (k, q) :: rest
    else if u = k then (u, p) :: rest
    else (k, q) :: mapInsert rest u p

/-- `Database::userExists`. -/
def userExists (m : List Entry) (u : Str) : Bool := (mapFind m u).isSome

/-- `Database::userCount`. -/
def userCount (m : List Entry) : Nat := m.length

/-- One line written by `Database::saveUsers`:
`user << "," << hash << "," << salt << endl`. -/
def entryLine (e : Entry) : Str := e.1 ++ ',' :: (e.2.1 ++ ',' :: (e.2.2 ++ ['\n']))

/-- The same line as handed back by `getline`, without its newline. -/
def entryLineBody (e : Entry) : Str := e.1 ++ ',' :: (e.2.1 ++ ',' :: e.2.2)

/-- `Database::saveUsers`: the whole map rewritten, one line per record, in
iteration order. -/
def saveUsers : List Entry → Str
  | [] => []
  | e :: rest => entryLine e ++ saveUsers rest

/-- Split a string at its first comma: `line.find(',')` plus the two
`substr` calls around it; `none` when there is no comma (`npos`). -/
def splitFirstComma : Str → Option (Str × Str)
  | [] => none
  | c :: rest =>
    if c = ',' then some ([], rest)
    else
      match splitFirstComma rest with
      | none => none
      | some (a, b) => some (c :: a, b)

/-- One line of `Database::loadUsers`: `pos1 = line.find(',')`,
`pos2 = line.find(',', pos1 + 1)`; `none` models the `continue` taken when
either position is `npos`, `some (u, h, s)` the three `substr` fields. -/
def parseLine (line : Str) : Option Entry :=
  match splitFirstComma line with
  | none => none
  | some (u, rest) =>
    match splitFirstComma rest with
    | none => none
    | some (h, s) => some (u, h, s)

/-- One `getline`: the characters before the first newline, and the rest
after it. -/
def takeLine : Str → Str × Str
  | [] => ([], [])
  | c :: rest =>
    if c = '\n' then ([], rest)
    else
      let r := takeLine rest
      (c :: r.1, r.2)

/-- The `while (getline(file, line))` loop, fueled by the file length (each
`getline` consumes at least one character of a non-empty remainder). -/
def getLinesGo : Nat → Str → List Str
  | 0, _ => []
  | _ + 1, [] => []
  | n + 1, c :: cs =>
    (takeLine (c :: cs)).1 :: getLinesGo n (takeLine (c :: cs)).2

/-- All lines `getline` yields from a file's contents. -/
def getLines (cs : Str) : List Str := getLinesGo cs.length cs

/-- Processing of one read line inside `loadUsers`: skip it, or assign
`users[username] = {hash, salt}`. -/
def loadLine (m : List Entry) (line : Str) : List Entry :=
  match parseLine line with
  | none => m
  | some (u, p) => mapInsert m u p

def loadLines (m : List Entry) (lines : List Str) : List Entry :=
  lines.foldl loadLine m

/-- `Database::loadUsers`: a missing backing file (`if (!file) return`)
leaves the map untouched; otherwise every line is read and processed. -/
def loadUsers (m : List Entry) (content : Option Str) : List Entry :=
  match content with
  | none => m
  | some cs => loadLines m (getLines cs)

/-- The store state the workflows see: the in-memory map plus the backing
file's contents (`none` when the file does not exist yet). -/
structure DBState where
  users : List Entry
  file : Option Str
  deriving DecidableEq

/-- `Database::addUser`: refuse a taken username without touching anything;
otherwise insert and immediately rewrite the whole backing file. -/
def addUser (st : DBState) (username hash salt : Str) : Bool × DBState :=
  if userExists st.users username then (false, st)
  else
    let users := mapInsert st.users username (hash, salt)
    (true, ⟨users, some (saveUsers users)⟩)

/-! ## Registration workflow tail (src/final.cpp lines 564-571) -/

/-- The tail of `registrationScreen` once a password has been accepted:
generate a salt, hash, add to the database.  Neither `registrationScreen`
nor `main` wraps this in a `try`/`catch`, so an exception thrown by
`hashPassword` escapes the workflow — modelled by propagating the error —
and, with no handler anywhere on the stack, terminates the process. -/
def registrationOutcome (kdf : Kdf) (st : DBState) (username password : Str)
    (saltBytes : List Nat) : Except HashError (Bool × DBState) :=
  let salt := bytesToHex saltBytes
  match hashPassword kdf password salt with
  | .error e => .error e
  | .ok hash => .ok (addUser st username hash salt)

/-- Field shapes under which the flat-text format is faithful: no comma in
the username or hash (the parser splits at the first two commas) and no
newline in any field (the writer separates records by newlines). -/
def CleanEntry (e : Entry) : Prop :=
  ',' ∉ e.1 ∧ ',' ∉ e.2.1 ∧ '\n' ∉ e.1 ∧ '\n' ∉ e.2.1 ∧ '\n' ∉ e.2.2

instance (e : Entry) : Decidable (CleanEntry e) := by
  unfold CleanEntry; infer_instance

/-! ## Character-class facts -/

theorem isLowerC_of_upper {c : Char} (h : isUpperC c = true) : isLowerC c = false := by
  simp only [isLowerC, isUpperC, Bool.and_eq_true, decide_eq_true_eq] at *
  simp only [Bool.and_eq_false_iff, decide_eq_false_iff_not]
  omega

theorem isLowerC_of_digit {c : Char} (h : isDigitC c = true) : isLowerC c = false := by
  simp only [isLowerC, isDigitC, Bool.and_eq_true, decide_eq_true_eq] at *
  simp only [Bool.and_eq_false_iff, decide_eq_false_iff_not]
  omega

theorem isUpperC_of_digit {c : Char} (h : isDigitC c = true) : isUpperC c = false := by
  simp only [isUpperC, isDigitC, Bool.and_eq_true, decide_eq_true_eq] at *
  simp only [Bool.and_eq_false_iff, decide_eq_false_iff_not]
  omega

/-! ## The character loop -/

theorem classifyStep_eq (a b c d : Bool) (x : Char) :
    classifyStep (a, b, c, d) x =
      (a || isLowerC x,
       b || (!isLowerC x && isUpperC x),
       c || (!isLowerC x && !isUpperC x && isDigitC x),
       d || (!isLowerC x && !isUpperC x && !isDigitC x)) := by
  unfold classifyStep
  by_cases hl : isLowerC x <;> by_cases hu : isUpperC x <;> by_cases hd : isDigitC x <;>
    simp [hl, hu, hd]

theorem foldl_classifyStep (pw : Str) (a b c d : Bool) :
    pw.foldl classifyStep (a, b, c, d) =
      (a || pw.any isLowerC,
       b || pw.any (fun x => !isLowerC x && isUpperC x),
       c || pw.any (fun x => !isLowerC x && !isUpperC x && isDigitC x),
       d || pw.any (fun x => !isLowerC x && !isUpperC x && !isDigitC x)) := by
  induction pw generalizing a b c d with
  | nil => simp
  | cons x xs ih =>
    simp only [List.foldl_cons, List.any_cons, classifyStep_eq]
    rw [ih]
    simp [Bool.or_assoc]

theorem classify_eq (pw : Str) :
    classify pw =
      (pw.any isLowerC,
       pw.any (fun x => !isLowerC x && isUpperC x),
       pw.any (fun x => !isLowerC x && !isUpperC x && isDigitC x),
       pw.any (fun x => !isLowerC x && !isUpperC x && !isDigitC x)) := by
  unfold classify
  rw [foldl_classifyStep]
  simp

theorem any_upper_unguarded (pw : Str) :
    pw.any (fun x => !isLowerC x && isUpperC x) = pw.any isUpperC := by
  induction pw with
  | nil => rfl
  | cons x xs ih =>
    simp only [List.any_cons, ih]
    by_cases hu : isUpperC x
    · simp [hu, isLowerC_of_upper hu]
    · simp [hu]

theorem any_digit_unguarded (pw : Str) :
    pw.any (fun x => !isLowerC x && !isUpperC x && isDigitC x) = pw.any isDigitC := by
  induction pw with
  | nil => rfl
  | cons x xs ih =>
    simp only [List.any_cons, ih]
    by_cases hd : isDigitC x
    · simp [hd, isLowerC_of_digit hd, isUpperC_of_digit hd]
    · simp [hd]

theorem any_special_unguarded (pw : Str) :
    pw.any (fun x => !isLowerC x && !isUpperC x && !isDigitC x) =
      pw.any (fun c => !(isLowerC c || isUpperC c) && !isDigitC c) := by
  simp [Bool.not_or, Bool.and_assoc]

/-- Claim C3: `checkStrength pw` returns true exactly when `pw` has length
at least 12, contains a lowercase letter, an uppercase letter, a digit, and
a character that is neither a letter nor a digit (special is precisely
not-a-letter-and-not-a-digit). -/
theorem checkStrength_iff (pw : Str) :
    checkStrength pw = true ↔
      12 ≤ pw.length ∧ (∃ c ∈ pw, isLowerC c = true) ∧ (∃ c ∈ pw, isUpperC c = true) ∧
        (∃ c ∈ pw, isDigitC c = true) ∧
        (∃ c ∈ pw, (isLowerC c || isUpperC c) = false ∧ isDigitC c = false) := by
  unfold checkStrength checkStrengthDiag
  by_cases hlen : pw.length < 12
  · simp only [hlen, if_true]
    constructor
    · intro h
      exact absurd h (by simp)
    · intro h
      omega
  · simp only [hlen, if_false]
    rw [classify_eq]
    simp only [any_upper_unguarded, any_digit_unguarded, any_special_unguarded,
      Bool.and_eq_true, List.any_eq_true, Bool.and_eq_true, Bool.not_eq_true',
      Bool.or_eq_false_iff]
    constructor
    · intro ⟨⟨⟨h1, h2⟩, h3⟩, h4⟩
      refine ⟨by omega, h1, h2, h3, ?_⟩
      obtain ⟨c, hc, hsp1, hsp2⟩ := h4
      exact ⟨c, hc, ⟨hsp1.1, hsp1.2⟩, hsp2⟩
    · intro ⟨_, h1, h2, h3, h4⟩
      obtain ⟨c, hc, ⟨hsp1, hsp2⟩, hsp3⟩ := h4
      exact ⟨⟨⟨h1, h2⟩, h3⟩, ⟨c, hc, ⟨hsp1, hsp2⟩, hsp3⟩⟩

/-- Claim C3 witness: a concrete strong password accepted through the
equivalence. -/
theorem checkStrength_iff_witness :
    checkStrength ['a', 'B', '3', '!', 'a', 'B', '3', '!', 'a', 'B', '3', '!'] = true :=
  (checkStrength_iff ['a', 'B', '3', '!', 'a', 'B', '3', '!', 'a', 'B', '3', '!']).mpr
    (by decide)

/-- Claim C4 fails on the code: the length contribution is computed with a
truncating `(int)` cast, not by rounding.  At the two-character password
"aa" the implementation scores `min(40, trunc(6.66)) + 15 = 21` while the
claimed formula gives `min(40, round(6.66)) + 15 = 22`. -/
theorem score_round_counterexample :
    calculateStrengthPercentage ['a', 'a'] = 21 ∧
      calculateStrengthPercentageSpec ['a', 'a'] = 22 ∧
      calculateStrengthPercentage ['a', 'a'] ≠ calculateStrengthPercentageSpec ['a', 'a'] := by
  decide

/-- Claim C4 as amended: the score is
`min(100, min(40, trunc(length * 3.33)) + 15 * k)` — the length part
truncates (`trunc(length * 3.33) = length * 333 / 100` exactly) rather than
rounds; `k` counts the categories present. -/
theorem calculateStrengthPercentage_eq (pw : Str) :
    calculateStrengthPercentage pw =
      min 100 (min 40 (pw.length * 333 / 100) + 15 * categoryCount pw) := by
  unfold calculateStrengthPercentage categoryCount lengthScore
  rw [classify_eq]
  simp only [any_upper_unguarded, any_digit_unguarded, any_special_unguarded]
  cases h1 : pw.any isLowerC <;> cases h2 : pw.any isUpperC <;>
    cases h3 : pw.any isDigitC <;>
    cases h4 : pw.any (fun c => !(isLowerC c || isUpperC c) && !isDigitC c) <;>
    simp only [h1, h2, h3, h4, if_true, if_false, Bool.false_eq_true, Bool.true_eq_false,
      ite_true, ite_false]

/-- Claim C5 fails on the code: for a password below the length minimum the
category checks are never reached, so a missing category is not reported.
The password "abc" has no digit, yet the only diagnostic emitted is the
length one — the claim's "regardless of the password's length" is false. -/
theorem shortPassword_diag_counterexample :
    (['a', 'b', 'c'] : Str).any isDigitC = false ∧
      checkStrength ['a', 'b', 'c'] = false ∧
      (checkStrengthDiag ['a', 'b', 'c']).2 = [Diag.tooShort] ∧
      Diag.missingDigit ∉ (checkStrengthDiag ['a', 'b', 'c']).2 := by
  decide

/-- Claim C5 as amended: once the length requirement is met (length at
least 12), every missing category makes `checkStrength` return false and
puts that category's distinct diagnostic in the emitted list. -/
theorem checkStrengthDiag_missing (pw : Str) (hlen : 12 ≤ pw.length) :
    (pw.any isLowerC = false →
      checkStrength pw = false ∧ Diag.missingLower ∈ (checkStrengthDiag pw).2) ∧
    (pw.any isUpperC = false →
      checkStrength pw = false ∧ Diag.missingUpper ∈ (checkStrengthDiag pw).2) ∧
    (pw.any isDigitC = false →
      checkStrength pw = false ∧ Diag.missingDigit ∈ (checkStrengthDiag pw).2) ∧
    (pw.any (fun c => !(isLowerC c || isUpperC c) && !isDigitC c) = false →
      checkStrength pw = false ∧ Diag.missingSpecial ∈ (checkStrengthDiag pw).2) := by
  have hlen2 : ¬pw.length < 12 := by omega
  unfold checkStrength checkStrengthDiag
  rw [classify_eq]
  simp only [hlen2, if_false, any_upper_unguarded, any_digit_unguarded, any_special_unguarded]
  refine ⟨fun h => ⟨?_, ?_⟩, fun h => ⟨?_, ?_⟩, fun h => ⟨?_, ?_⟩, fun h => ⟨?_, ?_⟩⟩
  · simp only [h, Bool.false_and, Bool.and_false]
  · simp [h, List.mem_append]
  · simp only [h, Bool.false_and, Bool.and_false]
  · simp [h, List.mem_append]
  · simp only [h, Bool.false_and, Bool.and_false]
  · simp [h, List.mem_append]
  · simp only [h, Bool.false_and, Bool.and_false]
  · have h2 := h
    rw [List.any_eq_false] at h2
    simp [h, List.mem_append]
    intro x hx hl hu
    have h3 := h2 x hx
    simp [hl, hu] at h3
    exact h3

/-- Claim C5 witness: a 12-character password missing exactly the digit
category is rejected with the digit diagnostic emitted. -/
theorem checkStrengthDiag_missing_witness :
    checkStrength ['a', 'b', 'c', 'd', 'e', 'f', 'g', 'h', 'i', 'j', 'K', '!'] = false ∧
      Diag.missingDigit ∈
        (checkStrengthDiag ['a', 'b', 'c', 'd', 'e', 'f', 'g', 'h', 'i', 'j', 'K', '!']).2 :=
  (checkStrengthDiag_missing ['a', 'b', 'c', 'd', 'e', 'f', 'g', 'h', 'i', 'j', 'K', '!']
    (by decide)).2.2.1 (by decide)

/-! ## Hasher claims -/

/-- Claim C1: hashing is deterministic in the password and the salt, so
whenever `hashPassword` succeeds on a salt produced by `generateSalt`,
recomputing the hash inside `verifyPassword` yields the same hex string and
the comparison succeeds. -/
theorem verify_roundtrip (kdf : Kdf) (p s h : Str) (_hs : GeneratedSalt s)
    (hok : hashPassword kdf p s = .ok h) : verifyPassword kdf p h s = true := by
  unfold verifyPassword
  rw [hok]
  simp

/-- Claim C1 witness: a concrete derivation function, password and
generated salt round-trip successfully. -/
theorem verify_roundtrip_witness :
    verifyPassword (fun _ _ => some (List.replicate 32 0)) ['p', 'w']
      (bytesToHex (List.replicate 32 0)) (bytesToHex (List.replicate 16 0)) = true :=
  verify_roundtrip (fun _ _ => some (List.replicate 32 0)) ['p', 'w']
    (bytesToHex (List.replicate 16 0)) (bytesToHex (List.replicate 32 0))
    ⟨List.replicate 16 0, by decide, by decide, rfl⟩ rfl

/-- Claim C6: `verifyPassword` fails closed — whatever the password, stored
hash and salt string (malformed and too-short salt hex included), a failing
internal hash computation makes it return `false` instead of raising. -/
theorem verify_failsClosed (kdf : Kdf) (p h s : Str) (e : HashError)
    (herr : hashPassword kdf p s = .error e) : verifyPassword kdf p h s = false := by
  unfold verifyPassword
  rw [herr]

/-- Claim C6 witness: a two-character salt makes the decode raise, and
verification of any stored hash returns `false`. -/
theorem verify_failsClosed_witness :
    verifyPassword (fun _ _ => some (List.replicate 32 0)) ['p', 'w'] ['d', 'e']
      ['x', 'y'] = false :=
  verify_failsClosed (fun _ _ => some (List.replicate 32 0)) ['p', 'w'] ['d', 'e']
    ['x', 'y'] .saltDecode rfl

/-- Claim C9 concerns a bug: a failing key derivation during registration
makes `hashPassword` throw, and `registrationScreen` (src/final.cpp line
565) calls it outside any `try` block, so the exception escapes the
workflow instead of being surfaced as a failed registration — with no
handler in `main` either, the process is terminated.  This theorem
evaluates the registration tail at such a failing input: the outcome is the
escaping error, not a completed-with-failure registration. -/
theorem registration_kdfFailure_escapes :
    registrationOutcome (fun _ _ => none) ⟨[], none⟩ ['b', 'o', 'b'] ['p', 'w']
      (List.replicate 16 0) = .error .kdfFailure ∧
      ∀ r : Bool × DBState,
        registrationOutcome (fun _ _ => none) ⟨[], none⟩ ['b', 'o', 'b'] ['p', 'w']
          (List.replicate 16 0) ≠ .ok r := by
  constructor
  · rfl
  · intro r hr
    rw [show registrationOutcome (fun _ _ => none) ⟨[], none⟩ ['b', 'o', 'b'] ['p', 'w']
        (List.replicate 16 0) = .error .kdfFailure from rfl] at hr
    exact Except.noConfusion hr

/-! ## Map facts -/

theorem strLt_irrefl (s : Str) : strLt s s = false := by
  induction s with
  | nil => rfl
  | cons a as ih => simp [strLt, ih]

theorem mapFind_insert (m : List Entry) (u : Str) (p : Str × Str) (v : Str) :
    mapFind (mapInsert m u p) v = if u = v then some p else mapFind m v := by
  induction m with
  | nil => simp [mapInsert, mapFind]
  | cons e rest ih =>
    obtain ⟨k, q⟩ := e
    simp only [mapInsert]
    by_cases hlt : strLt u k = true
    · rw [if_pos hlt]
      simp [mapFind]
    · rw [if_neg hlt]
      by_cases hk : u = k
      · subst hk
        rw [if_pos rfl]
        by_cases hv : u = v <;> simp [mapFind, hv]
      · rw [if_neg hk]
        simp only [mapFind, ih]
        by_cases hv : u = v
        · subst hv
          have hkv : ¬(k = u) := fun hh => hk hh.symm
          simp [hkv]
        · by_cases hkv : k = v <;> simp [hkv, hv]

theorem mapFind_append (l₁ l₂ : List Entry) (v : Str) :
    mapFind (l₁ ++ l₂) v =
      match mapFind l₁ v with
      | some p => some p
      | none => mapFind l₂ v := by
  induction l₁ with
  | nil => simp [mapFind]
  | cons e rest ih =>
    obtain ⟨k, q⟩ := e
    by_cases hk : k = v <;> simp [mapFind, hk, ih]

theorem mapFind_eq_none (m : List Entry) (v : Str) (hv : v ∉ m.map fun e => e.1) :
    mapFind m v = none := by
  induction m with
  | nil => rfl
  | cons e rest ih =>
    simp only [List.map_cons, List.mem_cons] at hv
    push_neg at hv
    have hne : e.1 ≠ v := fun hh => hv.1 hh.symm
    obtain ⟨k, q⟩ := e
    simp only [mapFind]
    simp [hne, ih hv.2]

theorem mapFind_reverse (m : List Entry) (hkeys : (m.map fun e => e.1).Nodup) (v : Str) :
    mapFind m.reverse v = mapFind m v := by
  induction m with
  | nil => rfl
  | cons e rest ih =>
    simp only [List.map_cons, List.nodup_cons] at hkeys
    obtain ⟨hnot, hrest⟩ := hkeys
    simp only [List.reverse_cons]
    rw [mapFind_append]
    by_cases hv : e.1 = v
    · have hnone : mapFind rest.reverse v = none := by
        apply mapFind_eq_none
        rw [← hv]
        simpa using hnot
      rw [hnone]
      obtain ⟨k, q⟩ := e
      simp only at hv
      simp [mapFind, hv]
    · rw [ih hrest]
      obtain ⟨k, q⟩ := e
      simp only at hv
      cases hfind : mapFind rest v with
      | some p => simp [mapFind, hv, hfind]
      | none => simp [mapFind, hv, hfind]

/-! ## Line parsing facts -/

theorem splitFirstComma_none_iff (l : Str) : splitFirstComma l = none ↔ ',' ∉ l := by
  induction l with
  | nil => simp [splitFirstComma]
  | cons c rest ih =>
    by_cases hc : c = ','
    · subst hc
      simp [splitFirstComma]
    · cases hsplit : splitFirstComma rest with
      | none =>
        simp only [splitFirstComma, hc, if_false, hsplit]
        have hr := ih.mp hsplit
        simp [hc, hr]
        intro hh
        exact hc hh.symm
      | some ab =>
        obtain ⟨a, b⟩ := ab
        simp only [splitFirstComma, hc, if_false, hsplit]
        have hr : ¬(',' ∉ rest) := fun hn => by
          rw [← ih] at hn
          rw [hn] at hsplit
          exact Option.noConfusion hsplit
        push_neg at hr
        simp [hr]

theorem splitFirstComma_construct (a b : Str) (ha : ',' ∉ a) :
    splitFirstComma (a ++ ',' :: b) = some (a, b) := by
  induction a with
  | nil => simp [splitFirstComma]
  | cons c rest ih =>
    simp only [List.mem_cons, not_or] at ha
    have hc : c ≠ ',' := fun hh => ha.1 hh.symm
    have ih2 := ih ha.2
    simp only [List.cons_append]
    unfold splitFirstComma
    rw [if_neg hc, ih2]

theorem splitFirstComma_some (l a b : Str) (hs : splitFirstComma l = some (a, b)) :
    l = a ++ ',' :: b ∧ ',' ∉ a := by
  induction l generalizing a b with
  | nil => exact Option.noConfusion hs
  | cons c rest ih =>
    by_cases hc : c = ','
    · subst hc
      simp only [splitFirstComma, if_true] at hs
      simp only [Option.some.injEq, Prod.mk.injEq] at hs
      obtain ⟨rfl, rfl⟩ := hs
      simp
    · simp only [splitFirstComma, hc, if_false] at hs
      cases hsplit : splitFirstComma rest with
      | none => rw [hsplit] at hs; exact Option.noConfusion hs
      | some ab =>
        obtain ⟨a2, b2⟩ := ab
        rw [hsplit] at hs
        simp only [Option.some.injEq, Prod.mk.injEq] at hs
        obtain ⟨rfl, rfl⟩ := hs
        obtain ⟨hrest, hna⟩ := ih a2 b2 hsplit
        subst hrest
        refine ⟨by simp, ?_⟩
        simp only [List.mem_cons, not_or]
        exact ⟨fun hh => hc hh.symm, hna⟩

theorem parseLine_construct (u h s : Str) (hu : ',' ∉ u) (hh : ',' ∉ h) :
    parseLine (u ++ ',' :: (h ++ ',' :: s)) = some (u, h, s) := by
  unfold parseLine
  rw [splitFirstComma_construct u (h ++ ',' :: s) hu]
  dsimp only
  rw [splitFirstComma_construct h s hh]

theorem entryLineBody_eq (e : Entry) :
    entryLineBody e = e.1 ++ ',' :: (e.2.1 ++ ',' :: e.2.2) := rfl

theorem parseLine_body (e : Entry) (hc : CleanEntry e) :
    parseLine (entryLineBody e) = some e := by
  obtain ⟨u, h, s⟩ := e
  obtain ⟨h1, h2, _, _, _⟩ := hc
  rw [entryLineBody_eq]
  exact parseLine_construct u h s h1 h2

theorem parseLine_some_count (l : Str) (e : Entry) (hp : parseLine l = some e) :
    2 ≤ l.count ',' := by
  unfold parseLine at hp
  cases h1 : splitFirstComma l with
  | none => rw [h1] at hp; exact Option.noConfusion hp
  | some ur =>
    obtain ⟨u, rest⟩ := ur
    rw [h1] at hp
    dsimp only at hp
    cases h2 : splitFirstComma rest with
    | none => rw [h2] at hp; exact Option.noConfusion hp
    | some hs =>
      obtain ⟨h, s⟩ := hs
      obtain ⟨hl, _⟩ := splitFirstComma_some l u rest h1
      obtain ⟨hr, _⟩ := splitFirstComma_some rest h s h2
      subst hl
      subst hr
      simp [List.count_append, List.count_cons]
      omega

theorem parseLine_none_of_count (l : Str) (hc : l.count ',' < 2) :
    parseLine l = none := by
  cases hp : parseLine l with
  | none => rfl
  | some e => exact absurd (parseLine_some_count l e hp) (by omega)

theorem parseLine_some_of_count (l : Str) (hc : 2 ≤ l.count ',') :
    ∃ u h s, ',' ∉ u ∧ ',' ∉ h ∧ l = u ++ ',' :: (h ++ ',' :: s) ∧
      parseLine l = some (u, h, s) := by
  have h0 : 0 < l.count ',' := by omega
  have hmem : ',' ∈ l := List.count_pos_iff.mp h0
  cases h1 : splitFirstComma l with
  | none => exact absurd ((splitFirstComma_none_iff l).mp h1) (by simp [hmem])
  | some ur =>
    obtain ⟨u, rest⟩ := ur
    obtain ⟨hl, hu⟩ := splitFirstComma_some l u rest h1
    have hcount : rest.count ',' = l.count ',' - 1 := by
      subst hl
      have : List.count ',' u = 0 := List.count_eq_zero.mpr hu
      simp [List.count_append, List.count_cons, this]
    have hmem2 : ',' ∈ rest := by
      apply List.count_pos_iff.mp
      omega
    cases h2 : splitFirstComma rest with
    | none => exact absurd ((splitFirstComma_none_iff rest).mp h2) (by simp [hmem2])
    | some hs =>
      obtain ⟨h, s⟩ := hs
      obtain ⟨hr, hh⟩ := splitFirstComma_some rest h s h2
      refine ⟨u, h, s, hu, hh, ?_, ?_⟩
      · rw [hl, hr]
      · rw [hl, hr]
        exact parseLine_construct u h s hu hh

/-! ## Load-loop facts -/

theorem loadLines_lookup (ls : List Str) (m : List Entry) (v : Str) :
    mapFind (loadLines m ls) v =
      match mapFind (ls.filterMap parseLine).reverse v with
      | some p => some p
      | none => mapFind m v := by
  induction ls generalizing m with
  | nil => simp [loadLines, List.filterMap_nil, mapFind]
  | cons l ls ih =>
    show mapFind (loadLines (loadLine m l) ls) v = _
    rw [ih]
    cases hp : parseLine l with
    | none =>
      simp only [loadLine, hp, List.filterMap_cons, hp]
    | some e =>
      obtain ⟨u, p⟩ := e
      simp only [loadLine, hp, List.filterMap_cons]
      simp only [List.reverse_cons]
      rw [mapFind_append]
      cases hrev : mapFind (ls.filterMap parseLine).reverse v with
      | some q => rfl
      | none =>
        rw [mapFind_insert]
        by_cases hv : u = v <;> simp [mapFind, hv]

theorem loadLines_skip_malformed (ls : List Str) (m : List Entry) :
    loadLines m ls = loadLines m (ls.filter fun l => (parseLine l).isSome) := by
  induction ls generalizing m with
  | nil => rfl
  | cons l ls ih =>
    cases hp : parseLine l with
    | none =>
      show loadLines (loadLine m l) ls = _
      rw [List.filter_cons]
      simp only [hp, Option.isSome_none, if_false]
      simp only [loadLine, hp]
      exact ih m
    | some e =>
      show loadLines (loadLine m l) ls = _
      rw [List.filter_cons]
      simp only [hp, Option.isSome_some, if_true]
      show _ = loadLines (loadLine m l) (ls.filter fun l => (parseLine l).isSome)
      exact ih (loadLine m l)

/-! ## getline facts -/

theorem takeLine_cons (c : Char) (cs : Str) :
    takeLine (c :: cs) =
      if c = '\n' then ([], cs) else (c :: (takeLine cs).1, (takeLine cs).2) := by
  by_cases hc : c = '\n' <;> simp [takeLine, hc]

theorem takeLine_decomp (l rest : Str) (hl : '\n' ∉ l) :
    takeLine (l ++ '\n' :: rest) = (l, rest) := by
  induction l with
  | nil => simp [takeLine]
  | cons c l2 ih =>
    simp only [List.mem_cons, not_or] at hl
    have hc : c ≠ '\n' := fun hh => hl.1 hh.symm
    rw [List.cons_append, takeLine_cons, if_neg hc, ih hl.2]

theorem takeLine_snd_le (cs : Str) : (takeLine cs).2.length ≤ cs.length := by
  induction cs with
  | nil => simp [takeLine]
  | cons c rest ih =>
    by_cases hc : c = '\n'
    · simp [takeLine, hc]
    · simp [takeLine, hc]
      omega

theorem takeLine_snd_cons (c : Char) (cs : Str) :
    (takeLine (c :: cs)).2.length ≤ cs.length := by
  by_cases hc : c = '\n'
  · simp [takeLine, hc]
  · simp only [takeLine, hc, if_false]
    exact takeLine_snd_le cs

theorem getLinesGo_nil (n : Nat) : getLinesGo n [] = [] := by
  cases n <;> rfl

theorem getLinesGo_congr (n : Nat) :
    ∀ (m : Nat) (cs : Str), cs.length ≤ n → cs.length ≤ m →
      getLinesGo n cs = getLinesGo m cs := by
  induction n with
  | zero =>
    intro m cs hn _
    have : cs = [] := List.length_eq_zero.mp (by omega)
    subst this
    rw [getLinesGo_nil, getLinesGo_nil]
  | succ n ih =>
    intro m cs hn hm
    cases cs with
    | nil => rw [getLinesGo_nil, getLinesGo_nil]
    | cons c rest =>
      simp only [List.length_cons] at hn hm
      cases m with
      | zero => omega
      | succ m2 =>
        show (takeLine (c :: rest)).1 :: getLinesGo n (takeLine (c :: rest)).2 =
          (takeLine (c :: rest)).1 :: getLinesGo m2 (takeLine (c :: rest)).2
        have hlen := takeLine_snd_cons c rest
        rw [ih m2 (takeLine (c :: rest)).2 (by omega) (by omega)]

theorem getLinesGo_line (n : Nat) (l rest : Str) (hl : '\n' ∉ l) :
    getLinesGo (n + 1) (l ++ '\n' :: rest) = l :: getLinesGo n rest := by
  cases l with
  | nil =>
    show (takeLine ('\n' :: rest)).1 :: getLinesGo n (takeLine ('\n' :: rest)).2 = _
    simp [takeLine]
  | cons c l2 =>
    have hd := takeLine_decomp (c :: l2) rest hl
    simp only [List.cons_append] at hd ⊢
    show (takeLine (c :: (l2 ++ '\n' :: rest))).1 ::
      getLinesGo n (takeLine (c :: (l2 ++ '\n' :: rest))).2 = _
    rw [hd]

theorem getLines_line (l rest : Str) (hl : '\n' ∉ l) :
    getLines (l ++ '\n' :: rest) = l :: getLines rest := by
  unfold getLines
  have hlen : (l ++ '\n' :: rest).length = (l.length + rest.length) + 1 := by
    simp [List.length_append]
    omega
  rw [hlen, getLinesGo_line (l.length + rest.length) l rest hl]
  rw [getLinesGo_congr (l.length + rest.length) rest.length rest (by omega) (by omega)]

theorem entryLine_eq_body (e : Entry) : entryLine e = entryLineBody e ++ ['\n'] := by
  simp [entryLine, entryLineBody, List.append_assoc]

theorem newline_not_mem_body (e : Entry) (hc : CleanEntry e) :
    '\n' ∉ entryLineBody e := by
  obtain ⟨u, h, s⟩ := e
  obtain ⟨_, _, h3, h4, h5⟩ := hc
  rw [entryLineBody_eq]
  simp only [List.mem_append, List.mem_cons, not_or]
  refine ⟨h3, by decide, h4, by decide, h5⟩

theorem getLines_save (m : List Entry) (hclean : ∀ e ∈ m, CleanEntry e) :
    getLines (saveUsers m) = m.map entryLineBody := by
  induction m with
  | nil => rfl
  | cons e rest ih =>
    have hce : CleanEntry e := hclean e (by simp)
    have hrest : ∀ x ∈ rest, CleanEntry x := fun x hx => hclean x (by simp [hx])
    show getLines (entryLine e ++ saveUsers rest) = entryLineBody e :: rest.map entryLineBody
    rw [entryLine_eq_body, List.append_assoc]
    show getLines (entryLineBody e ++ '\n' :: saveUsers rest) = _
    rw [getLines_line (entryLineBody e) (saveUsers rest) (newline_not_mem_body e hce)]
    rw [ih hrest]

theorem filterMap_parse_bodies (m : List Entry) (hclean : ∀ e ∈ m, CleanEntry e) :
    (m.map entryLineBody).filterMap parseLine = m := by
  induction m with
  | nil => rfl
  | cons e rest ih =>
    have hce : CleanEntry e := hclean e (by simp)
    have hrest : ∀ x ∈ rest, CleanEntry x := fun x hx => hclean x (by simp [hx])
    simp only [List.map_cons, List.filterMap_cons, parseLine_body e hce]
    rw [ih hrest]

/-! ## Store claims -/

/-- Claim C2: for every store state, adding a username that already exists
returns `false` and changes neither the in-memory map nor the backing file
(so the first record is untouched); adding a fresh username returns `true`,
makes the new record visible under that username without disturbing any
other, and rewrites the backing file with the full updated mapping. -/
theorem addUser_spec (st : DBState) (u h s : Str) :
    (userExists st.users u = true → addUser st u h s = (false, st)) ∧
    (userExists st.users u = false →
      (addUser st u h s).1 = true ∧
      mapFind (addUser st u h s).2.users u = some (h, s) ∧
      (∀ v, v ≠ u → mapFind (addUser st u h s).2.users v = mapFind st.users v) ∧
      (addUser st u h s).2.file = some (saveUsers (addUser st u h s).2.users)) := by
  constructor
  · intro hex
    simp [addUser, hex]
  · intro hnex
    simp only [addUser, hnex, Bool.false_eq_true, if_false]
    refine ⟨by trivial, ?_, ?_, by trivial⟩
    · rw [mapFind_insert]
      simp
    · intro v hv
      rw [mapFind_insert]
      have huv : ¬(u = v) := fun hh => hv hh.symm
      simp [huv]

/-- Claim C2 witness: a duplicate insertion is refused with the state
intact, and a fresh insertion succeeds and is found. -/
theorem addUser_spec_witness :
    addUser ⟨[(['a'], ['h'], ['s'])], none⟩ ['a'] ['x'] ['y'] =
      (false, ⟨[(['a'], ['h'], ['s'])], none⟩) ∧
    (addUser ⟨[], none⟩ ['a'] ['h'] ['s']).1 = true ∧
    mapFind (addUser ⟨[], none⟩ ['a'] ['h'] ['s']).2.users ['a'] = some (['h'], ['s']) :=
  ⟨(addUser_spec ⟨[(['a'], ['h'], ['s'])], none⟩ ['a'] ['x'] ['y']).1 (by decide),
   ((addUser_spec ⟨[], none⟩ ['a'] ['h'] ['s']).2 (by decide)).1,
   ((addUser_spec ⟨[], none⟩ ['a'] ['h'] ['s']).2 (by decide)).2.1⟩

/-- Claim C7 fails on the code: `Database::addUser` validates nothing, so
the store can hold a username containing a comma, and saving then loading
does not reproduce the mapping — the parser cuts the line at the first two
commas.  With username "a," the loaded store no longer knows "a,". -/
theorem save_load_counterexample :
    (addUser ⟨[], none⟩ ['a', ','] ['h'] ['s']).1 = true ∧
    mapFind (addUser ⟨[], none⟩ ['a', ','] ['h'] ['s']).2.users ['a', ','] =
      some (['h'], ['s']) ∧
    mapFind (loadUsers [] (addUser ⟨[], none⟩ ['a', ','] ['h'] ['s']).2.file)
      ['a', ','] = none := by
  decide

/-- Claim C7 as amended: for a mapping whose usernames are distinct (as the
map structure guarantees), whose usernames and hashes contain no comma and
whose fields contain no newline, saving to the backing file and loading it
into a fresh empty store yields an identical mapping — every username is
bound to the same pair. -/
theorem save_load_roundtrip (m : List Entry) (hclean : ∀ e ∈ m, CleanEntry e)
    (hkeys : (m.map fun e => e.1).Nodup) (v : Str) :
    mapFind (loadUsers [] (some (saveUsers m))) v = mapFind m v := by
  show mapFind (loadLines [] (getLines (saveUsers m))) v = _
  rw [getLines_save m hclean, loadLines_lookup, filterMap_parse_bodies m hclean,
    mapFind_reverse m hkeys]
  cases hf : mapFind m v with
  | some p => rfl
  | none => rfl

/-- Claim C7 witness: a concrete clean one-record store round-trips. -/
theorem save_load_roundtrip_witness :
    mapFind (loadUsers [] (some (saveUsers [(['a'], ['h'], ['s'])]))) ['a'] =
      mapFind [(['a'], ['h'], ['s'])] ['a'] :=
  save_load_roundtrip [(['a'], ['h'], ['s'])] (by decide) (by decide) ['a']

/-- Claim C8: `loadUsers` is total over arbitrary contents (it is a Lean
function).  A line with fewer than two commas is skipped: it parses to
nothing, and removing all such lines from the processed list leaves the
loaded map — hence `count()` — unchanged.  A line with at least two commas
parses into the (username, hash, salt) fields cut at the first two commas.
A missing backing file leaves the fresh store empty with zero records. -/
theorem loadUsers_total_spec :
    (∀ line : Str, line.count ',' < 2 → parseLine line = none) ∧
    (∀ line : Str, 2 ≤ line.count ',' →
      ∃ u h s, ',' ∉ u ∧ ',' ∉ h ∧ line = u ++ ',' :: (h ++ ',' :: s) ∧
        parseLine line = some (u, h, s)) ∧
    (∀ (m : List Entry) (ls : List Str),
      loadLines m ls = loadLines m (ls.filter fun l => (parseLine l).isSome)) ∧
    loadUsers [] none = [] ∧ userCount (loadUsers [] none) = 0 :=
  ⟨parseLine_none_of_count, parseLine_some_of_count,
   fun m ls => loadLines_skip_malformed ls m, rfl, rfl⟩

/-- Claim C8 witness: the spec's comma-free example line is skipped, and a
two-comma line parses into its three fields. -/
theorem loadUsers_total_spec_witness :
    parseLine ['j', 'u', 's', 't', 'o', 'n', 'e', 'u', 's', 'e', 'r'] = none ∧
    (∃ u h s, ',' ∉ u ∧ ',' ∉ h ∧
      (['u', ',', 'h', ',', 's'] : Str) = u ++ ',' :: (h ++ ',' :: s) ∧
      parseLine ['u', ',', 'h', ',', 's'] = some (u, h, s)) :=
  ⟨loadUsers_total_spec.1 _ (by decide), loadUsers_total_spec.2.1 _ (by decide)⟩

/-- Claim C10: loading a file holding two well-formed records for the same
username never fails and keeps no duplicate: the later line's `users[...] =`
assignment overwrites the earlier record, so the loaded store holds exactly
one record for that username, carrying the last line's hash and salt. -/
theorem loadUsers_duplicate_lastWins (u h₁ s₁ h₂ s₂ : Str)
    (hc₁ : CleanEntry (u, h₁, s₁)) (hc₂ : CleanEntry (u, h₂, s₂)) :
    loadUsers [] (some (entryLine (u, h₁, s₁) ++ entryLine (u, h₂, s₂))) =
      [(u, h₂, s₂)] ∧
    mapFind (loadUsers [] (some (entryLine (u, h₁, s₁) ++ entryLine (u, h₂, s₂)))) u =
      some (h₂, s₂) ∧
    userCount (loadUsers [] (some (entryLine (u, h₁, s₁) ++ entryLine (u, h₂, s₂)))) = 1 := by
  have hgl : getLines (entryLine (u, h₁, s₁) ++ entryLine (u, h₂, s₂)) =
      [entryLineBody (u, h₁, s₁), entryLineBody (u, h₂, s₂)] := by
    rw [entryLine_eq_body (u, h₁, s₁), List.append_assoc]
    show getLines (entryLineBody (u, h₁, s₁) ++ '\n' :: entryLine (u, h₂, s₂)) = _
    rw [getLines_line _ _ (newline_not_mem_body _ hc₁), entryLine_eq_body (u, h₂, s₂)]
    show _ :: getLines (entryLineBody (u, h₂, s₂) ++ '\n' :: []) = _
    rw [getLines_line _ _ (newline_not_mem_body _ hc₂)]
    rfl
  have hmain : loadUsers [] (some (entryLine (u, h₁, s₁) ++ entryLine (u, h₂, s₂))) =
      [(u, h₂, s₂)] := by
    show loadLines [] (getLines (entryLine (u, h₁, s₁) ++ entryLine (u, h₂, s₂))) = _
    rw [hgl]
    show loadLine (loadLine [] (entryLineBody (u, h₁, s₁))) (entryLineBody (u, h₂, s₂)) = _
    rw [show loadLine [] (entryLineBody (u, h₁, s₁)) = [(u, h₁, s₁)] from by
      simp [loadLine, parseLine_body _ hc₁, mapInsert]]
    simp [loadLine, parseLine_body _ hc₂, mapInsert, strLt_irrefl]
  refine ⟨hmain, ?_, ?_⟩
  · rw [hmain]
    simp [mapFind]
  · rw [hmain]
    rfl

/-- Claim C10 witness: two concrete records for the user "u" load to the
single, later record. -/
theorem loadUsers_duplicate_lastWins_witness :
    loadUsers [] (some (entryLine (['u'], ['a'], ['b']) ++ entryLine (['u'], ['c'], ['d']))) =
      [(['u'], ['c'], ['d'])] :=
  (loadUsers_duplicate_lastWins ['u'] ['a'] ['b'] ['c'] ['d'] (by decide) (by decide)).1

end AuthSystem
